import Mathlib

/-!
Shallow embedding of the speaker-diarization pipeline of
`services/audio-diarization` (files `src/diarization.py` and
`utils/audio_utils.py`).

Times are rationals (seconds).  Feature vectors are abstracted by a type
parameter `α`: none of the verified properties depends on the numeric
content of the feature vectors, only on the control flow of the pipeline.
External library calls (sklearn's `AgglomerativeClustering`,
`silhouette_score`, `StandardScaler`) are modelled as function parameters:
they are deterministic functions supplied by the environment, and the
definitions below reproduce exactly how `diarization.py` composes them.
-/

/-- A speaker segment, `{'speaker': ..., 'start': ..., 'end': ...}` in the
Python code (`end` is spelled `stop` because `end` is a Lean keyword). -/
structure Seg where
  speaker : Nat
  start : ℚ
  stop : ℚ
deriving Repr, DecidableEq

/-- The dictionary returned by `process_diarization`. -/
structure DiarizationResult where
  duration : ℚ
  num_speakers : Nat
  segments : List Seg
deriving Repr, DecidableEq

/-! ## Voice activity detection (`detect_voice_activity`) -/

/-- `librosa.frames_to_time` with `hop_length=512`, `sr=16000`:
one frame index corresponds to `512/16000` seconds. -/
def hopTime : ℚ := 512 / 16000

/-- `np.where(energy_db > threshold)[0]`: the indices of the frames whose
energy strictly exceeds the threshold, in increasing order. -/
def speechFrameIdx (energy : List ℚ) (threshold : ℚ) : List Nat :=
  (List.range energy.length).filter (fun k => decide (threshold < energy.getD k 0))

/-- The scan of `detect_voice_activity` that splits the active frame
indices into maximal runs: a new run starts whenever the gap between
consecutive indices exceeds 1 (`speech_frames[i] - speech_frames[i-1] > 1`). -/
def groupRunsGo (start last : Nat) : List Nat → List (Nat × Nat)
  | [] => [(start, last)]
  | y :: ys =>
    if last + 1 < y then (start, last) :: groupRunsGo y y ys
    else groupRunsGo start y ys

/-- Maximal runs `(start_idx, end_idx)` of consecutive active frames. -/
def groupRuns : List Nat → List (Nat × Nat)
  | [] => []
  | x :: xs => groupRunsGo x x xs

/-- `detect_voice_activity(y, sr, threshold_db)`, starting from the per-frame
RMS energies in dB (the energies themselves come from `librosa.feature.rms`,
an external call, so they are the input here).  Runs are converted to time
intervals and intervals shorter than 0.5 s are dropped. -/
def detectVoiceActivity (energy : List ℚ) (threshold : ℚ) : List (ℚ × ℚ) :=
  let sf := speechFrameIdx energy threshold
  if sf.isEmpty then []
  else
    ((groupRuns sf).map
        (fun se => ((se.1 : ℚ) * hopTime, (se.2 : ℚ) * hopTime))).filter
      (fun iv => decide ((1 : ℚ)/2 ≤ iv.2 - iv.1))

/-! ## Segment assembly (`cluster_speakers`, lines 218-263) -/

/-- The first assembly pass over `(label, timestamp)` pairs: a running
segment `(cur, segStart, prev)` is closed whenever the speaker label
changes or the gap between consecutive timestamps exceeds 1.0 s. -/
def buildAux (cur : Nat) (segStart prev : ℚ) : List (Nat × ℚ) → List Seg
  | [] => [⟨cur, segStart, prev⟩]
  | (l, t) :: rest =>
    if l ≠ cur ∨ 1 < t - prev then
      ⟨cur, segStart, prev⟩ :: buildAux l t t rest
    else
      buildAux cur segStart t rest

/-- The per-frame to per-run conversion of `cluster_speakers`
(the loop over `range(1, len(speech_frames))`). -/
def buildSegments : List (Nat × ℚ) → List Seg
  | [] => []
  | (l, t) :: rest => buildAux l t t rest

/-- The merge condition of the second pass: same speaker and a gap below
0.5 s (`next_segment['speaker'] == current['speaker'] and
next_segment['start'] - current['end'] < 0.5`). -/
def mergeCond (cur nxt : Seg) : Prop :=
  nxt.speaker = cur.speaker ∧ nxt.start - cur.stop < 1/2

instance (cur nxt : Seg) : Decidable (mergeCond cur nxt) := by
  unfold mergeCond; infer_instance

/-- The merge loop with accumulator `current`; absorbing a segment extends
`current`'s end to the absorbed segment's end. -/
def mergeAux (cur : Seg) : List Seg → List Seg
  | [] => [cur]
  | n :: rest =>
    if mergeCond cur n then mergeAux { cur with stop := n.stop } rest
    else cur :: mergeAux n rest

/-- The second (merge) pass of `cluster_speakers` (lines 247-263). -/
def mergeSegments : List Seg → List Seg
  | [] => []
  | s :: rest => mergeAux s rest

/-! ## Model-order selection (`cluster_speakers`, lines 171-216) -/

/-- Candidate cluster counts:
`range(min_speakers, min(max_speakers + 1, len(scaled_features)))`, with the
`if n_clusters <= 1: continue` skip. -/
def candidateKs (minS maxS n : Nat) : List Nat :=
  (List.range' minS (min (maxS + 1) n - minS)).filter (fun k => decide (1 < k))

/-- One iteration body of the trial loop: run the (abstract) clustering
for `k`, skip it when all samples collapse into at most one distinct label
(`len(np.unique(cluster_labels)) <= 1`), otherwise ask the (abstract)
silhouette function, whose `none` models the `except` branch at line 201. -/
def evalCandidate {α : Type} (clusterFn : Nat → List α → List Nat)
    (silFn : List α → List Nat → Option ℚ) (scaled : List α) (k : Nat) :
    Option ℚ :=
  let labels := clusterFn k scaled
  if labels.dedup.length ≤ 1 then none else silFn scaled labels

/-- The best-score tracking of the trial loop: starting from
`(min_speakers, -1)` (`best_n_clusters = min_speakers`, `best_score = -1`),
a candidate replaces the incumbent exactly when its score is strictly
greater (`if score > best_score`). -/
def selectBest (score : Nat → Option ℚ) (minS maxS n : Nat) : Nat × ℚ :=
  (candidateKs minS maxS n).foldl
    (fun best k =>
      match score k with
      | none => best
      | some sc => if best.2 < sc then (k, sc) else best)
    (minS, -1)

/-! ## `cluster_speakers` -/

/-- Membership of a frame timestamp in some VAD interval
(`(frames >= start_time) & (frames <= end_time)`). -/
def inVoice (t : ℚ) (vad : List (ℚ × ℚ)) : Bool :=
  vad.any (fun iv => decide (iv.1 ≤ t) && decide (t ≤ iv.2))

/-- `cluster_speakers(features, frames, vad_segments, min_speakers,
max_speakers)`.  `clusterFn k xs` models
`AgglomerativeClustering(n_clusters=k).fit_predict(xs)`, `silFn` models
`silhouette_score` (with `none` for a raised exception) and `scaleFn`
models `StandardScaler().fit_transform`; all three are deterministic
functions of their arguments. -/
def clusterSpeakers {α : Type} (clusterFn : Nat → List α → List Nat)
    (silFn : List α → List Nat → Option ℚ) (scaleFn : List α → List α)
    (features : List α) (frames : List ℚ) (vad : List (ℚ × ℚ))
    (minS maxS : Nat) : List Seg :=
  match vad with
  | [] => []
  | _ :: _ =>
    let kept := (features.zip frames).filter (fun p => inVoice p.2 vad)
    match kept.map Prod.fst with
    | [] => []
    | _ :: _ =>
      let speechFrames := kept.map Prod.snd
      let scaled := scaleFn (kept.map Prod.fst)
      let bestK :=
        (selectBest (evalCandidate clusterFn silFn scaled) minS maxS
          scaled.length).1
      let labels := clusterFn bestK scaled
      mergeSegments (buildSegments (labels.zip speechFrames))

/-! ## `process_diarization` and `convert_to_wav` -/

/-- The two decode strategies of `audio_utils.convert_to_wav`. -/
inductive DecodeStrategy
  | ffmpeg
  | librosa
deriving Repr, DecidableEq

/-- `convert_to_wav(input_path, output_path, ...)`.  The outcome of each
external strategy (the FFmpeg subprocess; `librosa.load` + `sf.write`) is
an input; the function returns the output path as soon as one strategy
succeeds and raises (models `raise Exception(...)`) when both fail.  The
second component records which strategies were attempted, in order. -/
def convertToWav (ffmpegRes librosaRes : Except String Unit)
    (outputPath : String) : Except String String × List DecodeStrategy :=
  match ffmpegRes with
  | .ok _ => (.ok outputPath, [.ffmpeg])
  | .error e =>
    match librosaRes with
    | .ok _ => (.ok outputPath, [.ffmpeg, .librosa])
    | .error e2 =>
      (.error ("conversion failed: " ++ e ++ "; caused by: " ++ e2),
        [.ffmpeg, .librosa])

/-- The environment of one `process_diarization` call.  `extractRes`
models the outcome of `extract_features(temp_wav)` together with the data
derived from the loaded samples `y`: the feature rows, their timestamps
(`librosa.times_like`), the per-frame RMS energies in dB used by
`detect_voice_activity`, and `librosa.get_duration(y=y, sr=sr)`. -/
structure PipelineInput (α : Type) where
  clusterFn : Nat → List α → List Nat
  silFn : List α → List Nat → Option ℚ
  scaleFn : List α → List α
  ffmpegRes : Except String Unit
  librosaRes : Except String Unit
  extractRes : Except String (List α × List ℚ × List ℚ × ℚ)
  audioPath : String
  tempPath : String
  minSpeakers : Nat
  maxSpeakers : Nat
  fs : List String

/-- `len(set(segment['speaker'] for segment in speaker_segments)) if
speaker_segments else 0`. -/
def numSpeakersOf (segs : List Seg) : Nat :=
  match segs with
  | [] => 0
  | _ :: _ => ((segs.map Seg.speaker).dedup).length

/-- `process_diarization(audio_path, min_speakers, max_speakers)` with an
explicit file-system component: the second component of the result is the
list of files present after the call (`i.fs` being the files present
before it).  `convert_to_wav` writes `i.tempPath` on success; the code
removes it only on the straight-line path after clustering (lines
298-299). -/
def processDiarizationFS {α : Type} (i : PipelineInput α) :
    Except String DiarizationResult × List String :=
  match (convertToWav i.ffmpegRes i.librosaRes i.tempPath).1 with
  | .error e => (.error e, i.fs)
  | .ok _ =>
    let files1 := i.tempPath :: i.fs
    match i.extractRes with
    | .error e => (.error e, files1)
    | .ok (features, frames, energy, dur) =>
      let vad := detectVoiceActivity energy (-40)
      let segs := clusterSpeakers i.clusterFn i.silFn i.scaleFn features
        frames vad i.minSpeakers i.maxSpeakers
      (.ok { duration := dur, num_speakers := numSpeakersOf segs,
             segments := segs },
        files1.erase i.tempPath)

/-! ## Lemmas about the merge pass -/

theorem mergeCond_iff_left (x y n : Seg) (hsp : x.speaker = y.speaker)
    (hst : x.stop = y.stop) : mergeCond x n ↔ mergeCond y n := by
  unfold mergeCond; rw [hsp, hst]

theorem mergeCond_iff_right (cur x y : Seg) (hsp : x.speaker = y.speaker)
    (hst : x.start = y.start) : mergeCond cur x ↔ mergeCond cur y := by
  unfold mergeCond; rw [hsp, hst]

theorem mergeAux_head (xs : List Seg) : ∀ cur : Seg,
    ∃ e tl, mergeAux cur xs = Seg.mk cur.speaker cur.start e :: tl := by
  induction xs with
  | nil => exact fun cur => ⟨cur.stop, [], rfl⟩
  | cons n rest ih =>
    intro cur
    by_cases h : mergeCond cur n
    · obtain ⟨e, tl, htl⟩ := ih { cur with stop := n.stop }
      exact ⟨e, tl, by simpa [mergeAux, h] using htl⟩
    · exact ⟨cur.stop, mergeAux n rest, by simp [mergeAux, h]⟩

theorem mergeAux_chain (xs : List Seg) : ∀ cur : Seg,
    List.Chain' (fun a b => ¬ mergeCond a b) (mergeAux cur xs) := by
  induction xs with
  | nil => intro cur; simp [mergeAux]
  | cons n rest ih =>
    intro cur
    by_cases h : mergeCond cur n
    · simpa [mergeAux, h] using ih { cur with stop := n.stop }
    · rw [mergeAux, if_neg h]
      rw [List.chain'_cons']
      refine ⟨?_, ih n⟩
      intro b hb
      obtain ⟨e, tl, htl⟩ := mergeAux_head rest n
      rw [htl] at hb
      simp only [List.head?_cons, Option.mem_def, Option.some.injEq] at hb
      subst hb
      exact fun hc => h ((mergeCond_iff_right cur _ n rfl rfl).mp hc)

theorem mergeAux_of_chain : ∀ (xs : List Seg) (cur : Seg),
    List.Chain' (fun a b => ¬ mergeCond a b) (cur :: xs) →
    mergeAux cur xs = cur :: xs := by
  intro xs
  induction xs with
  | nil => intro cur _; rfl
  | cons n rest ih =>
    intro cur h
    rw [List.chain'_cons] at h
    rw [mergeAux, if_neg h.1, ih n h.2]

theorem mergeSegments_of_chain (l : List Seg)
    (h : List.Chain' (fun a b => ¬ mergeCond a b) l) :
    mergeSegments l = l := by
  cases l with
  | nil => rfl
  | cons s xs => exact mergeAux_of_chain xs s h

theorem mergeSegments_chain (l : List Seg) :
    List.Chain' (fun a b => ¬ mergeCond a b) (mergeSegments l) := by
  cases l with
  | nil => simp [mergeSegments]
  | cons s xs => exact mergeAux_chain xs s

theorem mergeSegments_idem (l : List Seg) :
    mergeSegments (mergeSegments l) = mergeSegments l :=
  mergeSegments_of_chain _ (mergeSegments_chain l)

/-! ## Order invariants of the assembler -/

theorem buildAux_head (xs : List (Nat × ℚ)) : ∀ cur segStart prev,
    ∃ e tl, buildAux cur segStart prev xs = Seg.mk cur segStart e :: tl := by
  induction xs with
  | nil => exact fun cur s p => ⟨p, [], rfl⟩
  | cons q rest ih =>
    intro cur s prev
    obtain ⟨l, t⟩ := q
    by_cases h : l ≠ cur ∨ 1 < t - prev
    · exact ⟨prev, buildAux l t t rest, by simp [buildAux, h]⟩
    · obtain ⟨e, tl, htl⟩ := ih cur s t
      exact ⟨e, tl, by simpa [buildAux, h] using htl⟩

theorem buildAux_ordered (xs : List (Nat × ℚ)) : ∀ cur segStart prev,
    segStart ≤ prev →
    List.Chain' (· < ·) (prev :: xs.map Prod.snd) →
    List.Chain' (fun a b : Seg => a.stop ≤ b.start)
        (buildAux cur segStart prev xs) ∧
      ∀ s ∈ buildAux cur segStart prev xs, s.start ≤ s.stop := by
  induction xs with
  | nil =>
    intro cur s p hsp _
    refine ⟨by simp [buildAux], ?_⟩
    intro x hx
    simp only [buildAux, List.mem_singleton] at hx
    subst hx
    exact hsp
  | cons q rest ih =>
    intro cur s prev hsp hch
    obtain ⟨l, t⟩ := q
    simp only [List.map_cons, List.chain'_cons] at hch
    by_cases h : l ≠ cur ∨ 1 < t - prev
    · have hIH := ih l t t le_rfl hch.2
      rw [buildAux, if_pos h]
      constructor
      · rw [List.chain'_cons']
        refine ⟨?_, hIH.1⟩
        intro b hb
        obtain ⟨e, tl, htl⟩ := buildAux_head rest l t t
        rw [htl] at hb
        simp only [List.head?_cons, Option.mem_def, Option.some.injEq] at hb
        subst hb
        exact le_of_lt hch.1
      · intro x hx
        rcases List.mem_cons.mp hx with hx | hx
        · subst hx; exact hsp
        · exact hIH.2 x hx
    · have hIH := ih cur s t (hsp.trans (le_of_lt hch.1)) hch.2
      rw [buildAux, if_neg h]
      exact hIH

theorem mergeAux_ordered (xs : List Seg) : ∀ cur : Seg,
    List.Chain' (fun a b : Seg => a.stop ≤ b.start) (cur :: xs) →
    (∀ s ∈ cur :: xs, s.start ≤ s.stop) →
    List.Chain' (fun a b : Seg => a.stop ≤ b.start) (mergeAux cur xs) ∧
      ∀ s ∈ mergeAux cur xs, s.start ≤ s.stop := by
  induction xs with
  | nil =>
    intro cur _ hse
    refine ⟨by simp [mergeAux], ?_⟩
    intro x hx
    simp only [mergeAux, List.mem_singleton] at hx
    rw [hx]
    exact hse cur (List.mem_singleton_self cur)
  | cons n rest ih =>
    intro cur hch hse
    rw [List.chain'_cons] at hch
    have hch2 := hch.2
    rw [List.chain'_cons'] at hch2
    by_cases h : mergeCond cur n
    · rw [mergeAux, if_pos h]
      refine ih { cur with stop := n.stop } ?_ ?_
      · rw [List.chain'_cons']
        exact ⟨hch2.1, hch2.2⟩
      · intro x hx
        rcases List.mem_cons.mp hx with hx | hx
        · subst hx
          have h1 : cur.start ≤ cur.stop := hse cur (by simp)
          have h2 : n.start ≤ n.stop := hse n (by simp)
          exact le_trans h1 (le_trans hch.1 h2)
        · exact hse x (by simp [hx])
    · rw [mergeAux, if_neg h]
      have hIH := ih n (List.chain'_cons'.mpr hch2)
        (fun s hs => hse s (by simp [List.mem_cons.mp hs]))
      constructor
      · rw [List.chain'_cons']
        refine ⟨?_, hIH.1⟩
        intro b hb
        obtain ⟨e, tl, htl⟩ := mergeAux_head rest n
        rw [htl] at hb
        simp only [List.head?_cons, Option.mem_def, Option.some.injEq] at hb
        subst hb
        exact hch.1
      · intro x hx
        rcases List.mem_cons.mp hx with hx | hx
        · rw [hx]; exact hse cur (by simp)
        · exact hIH.2 x hx

theorem assembled_ordered (pairs : List (Nat × ℚ))
    (h : List.Chain' (· < ·) (pairs.map Prod.snd)) :
    List.Chain' (fun a b : Seg => a.stop ≤ b.start)
        (mergeSegments (buildSegments pairs)) ∧
      ∀ s ∈ mergeSegments (buildSegments pairs), s.start ≤ s.stop := by
  cases pairs with
  | nil => exact ⟨by simp [buildSegments, mergeSegments], by simp [buildSegments, mergeSegments]⟩
  | cons q rest =>
    obtain ⟨l, t⟩ := q
    simp only [List.map_cons] at h
    have hb := buildAux_ordered rest l t t le_rfl h
    have hbs : buildSegments ((l, t) :: rest) = buildAux l t t rest := rfl
    obtain ⟨e, tl, htl⟩ := buildAux_head rest l t t
    rw [htl] at hb
    rw [hbs, htl]
    have hm : mergeSegments (Seg.mk l t e :: tl) = mergeAux (Seg.mk l t e) tl :=
      rfl
    rw [hm]
    exact mergeAux_ordered tl (Seg.mk l t e) hb.1 hb.2

theorem chain_start_le (l : List Seg)
    (hch : List.Chain' (fun a b : Seg => a.stop ≤ b.start) l)
    (hse : ∀ s ∈ l, s.start ≤ s.stop) :
    List.Chain' (fun a b : Seg => a.start ≤ b.start) l := by
  induction l with
  | nil => simp
  | cons a l ih =>
    rw [List.chain'_cons'] at hch ⊢
    refine ⟨?_, ih hch.2 (fun s hs => hse s (by simp [hs]))⟩
    intro b hb
    have h1 : a.start ≤ a.stop := hse a (by simp)
    have h2 : a.stop ≤ b.start := hch.1 b hb
    exact le_trans h1 h2

/-! ## Singleton runs survive assembly -/

theorem mergeAux_mem (s : Seg) (v : List Seg)
    (hv : ∀ n ∈ v.head?, ¬ mergeCond s n) :
    s ∈ mergeAux s v := by
  cases v with
  | nil => simp [mergeAux]
  | cons n v' =>
    rw [mergeAux, if_neg (hv n (by simp))]
    exact List.mem_cons_self s _

theorem mergeAux_mem_of_breaks (u : List Seg) : ∀ (cur s : Seg) (v : List Seg),
    (u = [] → ¬ mergeCond cur s) →
    (∀ x, u.getLast? = some x → ¬ mergeCond x s) →
    (∀ n ∈ v.head?, ¬ mergeCond s n) →
    s ∈ mergeAux cur (u ++ s :: v) := by
  induction u with
  | nil =>
    intro cur s v h0 _ hv
    rw [List.nil_append, mergeAux, if_neg (h0 rfl)]
    exact List.mem_cons_of_mem _ (mergeAux_mem s v hv)
  | cons x u' ih =>
    intro cur s v _ hu hv
    rw [List.cons_append, mergeAux]
    by_cases h : mergeCond cur x
    · rw [if_pos h]
      refine ih _ s v ?_ ?_ hv
      · intro hu'
        subst hu'
        intro hc
        exact hu x (by simp)
          ((mergeCond_iff_left { cur with stop := x.stop } x s h.1.symm rfl).mp hc)
      · intro y hy
        apply hu
        cases u' with
        | nil => simp at hy
        | cons z u'' => rw [List.getLast?_cons_cons]; exact hy
    · rw [if_neg h]
      refine List.mem_cons_of_mem _ (ih x s v ?_ ?_ hv)
      · intro hu'
        subst hu'
        exact hu x (by simp)
      · intro y hy
        apply hu
        cases u' with
        | nil => simp at hy
        | cons z u'' => rw [List.getLast?_cons_cons]; exact hy

theorem mem_mergeSegments_of_breaks (u : List Seg) (s : Seg) (v : List Seg)
    (hu : ∀ x, u.getLast? = some x → ¬ mergeCond x s)
    (hv : ∀ n ∈ v.head?, ¬ mergeCond s n) :
    s ∈ mergeSegments (u ++ s :: v) := by
  cases u with
  | nil => exact mergeAux_mem s v hv
  | cons x u' =>
    show s ∈ mergeAux x (u' ++ s :: v)
    refine mergeAux_mem_of_breaks u' x s v ?_ ?_ hv
    · intro h
      subst h
      exact hu x (by simp)
    · intro y hy
      apply hu
      cases u' with
      | nil => simp at hy
      | cons z u'' => rw [List.getLast?_cons_cons]; exact hy

theorem buildAux_single (b : Nat) (tb : ℚ) (post : List (Nat × ℚ))
    (hc : ∀ c tc post', post = (c, tc) :: post' → (c ≠ b ∨ 1 < tc - tb)) :
    ∃ w, buildAux b tb tb post = Seg.mk b tb tb :: w ∧
      ∀ n ∈ w.head?, ¬ mergeCond (Seg.mk b tb tb) n := by
  cases post with
  | nil => exact ⟨[], rfl, by simp⟩
  | cons q post' =>
    obtain ⟨c, tc⟩ := q
    have h := hc c tc post' rfl
    rw [buildAux, if_pos h]
    refine ⟨buildAux c tc tc post', rfl, ?_⟩
    intro n hn
    obtain ⟨e, tl, htl⟩ := buildAux_head post' c tc tc
    rw [htl] at hn
    simp only [List.head?_cons, Option.mem_def, Option.some.injEq] at hn
    subst hn
    rintro ⟨hm1, hm2⟩
    rcases h with h | h
    · exact h hm1
    · simp only at hm2
      linarith

theorem buildAux_decomp (a : Nat) (ta : ℚ) (b : Nat) (tb : ℚ)
    (post : List (Nat × ℚ))
    (hb : b ≠ a ∨ 1 < tb - ta)
    (hc : ∀ c tc post', post = (c, tc) :: post' → (c ≠ b ∨ 1 < tc - tb)) :
    ∀ (pre : List (Nat × ℚ)) (cur : Nat) (segStart prev : ℚ),
    ∃ u s' w,
      buildAux cur segStart prev (pre ++ (a, ta) :: (b, tb) :: post) =
        u ++ Seg.mk a s' ta :: Seg.mk b tb tb :: w ∧
      ∀ n ∈ w.head?, ¬ mergeCond (Seg.mk b tb tb) n := by
  intro pre
  induction pre with
  | nil =>
    intro cur segStart prev
    rw [List.nil_append]
    obtain ⟨w, hw, hwh⟩ := buildAux_single b tb post hc
    by_cases h : a ≠ cur ∨ 1 < ta - prev
    · rw [buildAux, if_pos h, buildAux, if_pos hb, hw]
      exact ⟨[⟨cur, segStart, prev⟩], ta, w, rfl, hwh⟩
    · rw [buildAux, if_neg h]
      push_neg at h
      have hb' : b ≠ cur ∨ 1 < tb - ta := by
        rcases hb with h1 | h1
        · exact Or.inl (by rw [← h.1]; exact h1)
        · exact Or.inr h1
      rw [buildAux, if_pos hb', hw]
      exact ⟨[], segStart, w, by rw [h.1]; rfl, hwh⟩
  | cons q pre' ih =>
    intro cur segStart prev
    obtain ⟨l, t⟩ := q
    rw [List.cons_append]
    by_cases h : l ≠ cur ∨ 1 < t - prev
    · rw [buildAux, if_pos h]
      obtain ⟨u, s', w, hw, hwh⟩ := ih l t t
      exact ⟨⟨cur, segStart, prev⟩ :: u, s', w, by rw [hw]; rfl, hwh⟩
    · rw [buildAux, if_neg h]
      exact ih cur segStart t

theorem singleton_run_mem (pre : List (Nat × ℚ)) (a : Nat) (ta : ℚ) (b : Nat)
    (tb : ℚ) (post : List (Nat × ℚ))
    (hb : b ≠ a ∨ 1 < tb - ta)
    (hc : ∀ c tc post', post = (c, tc) :: post' → (c ≠ b ∨ 1 < tc - tb)) :
    Seg.mk b tb tb ∈
      mergeSegments (buildSegments (pre ++ (a, ta) :: (b, tb) :: post)) := by
  have hnm : ∀ s' : ℚ, ¬ mergeCond (Seg.mk a s' ta) (Seg.mk b tb tb) := by
    intro s'
    rintro ⟨hm1, hm2⟩
    rcases hb with h | h
    · exact h hm1
    · simp only at hm2
      linarith
  cases pre with
  | nil =>
    show Seg.mk b tb tb ∈ mergeSegments (buildAux a ta ta ((b, tb) :: post))
    rw [buildAux, if_pos hb]
    obtain ⟨w, hw, hwh⟩ := buildAux_single b tb post hc
    rw [hw]
    exact mem_mergeSegments_of_breaks [⟨a, ta, ta⟩] _ w
      (by intro x hx; simp only [List.getLast?_singleton, Option.some.injEq] at hx
          rw [← hx]; exact hnm ta) hwh
  | cons q pre' =>
    obtain ⟨l, t⟩ := q
    show Seg.mk b tb tb ∈
      mergeSegments (buildAux l t t (pre' ++ (a, ta) :: (b, tb) :: post))
    obtain ⟨u, s', w, hw, hwh⟩ := buildAux_decomp a ta b tb post hb hc pre' l t t
    rw [hw]
    have hsplit : u ++ Seg.mk a s' ta :: Seg.mk b tb tb :: w =
        (u ++ [Seg.mk a s' ta]) ++ Seg.mk b tb tb :: w := by simp
    rw [hsplit]
    refine mem_mergeSegments_of_breaks (u ++ [⟨a, s', ta⟩]) _ w ?_ hwh
    intro x hx
    rw [List.getLast?_concat] at hx
    simp only [Option.some.injEq] at hx
    rw [← hx]
    exact hnm s'

theorem singleton_run_mem_head (b : Nat) (tb : ℚ) (post : List (Nat × ℚ))
    (hc : ∀ c tc post', post = (c, tc) :: post' → (c ≠ b ∨ 1 < tc - tb)) :
    Seg.mk b tb tb ∈ mergeSegments (buildSegments ((b, tb) :: post)) := by
  show Seg.mk b tb tb ∈ mergeSegments (buildAux b tb tb post)
  obtain ⟨w, hw, hwh⟩ := buildAux_single b tb post hc
  rw [hw]
  exact mergeAux_mem _ w hwh

/-! ## VAD invariants -/

theorem speechFrameIdx_chain (energy : List ℚ) (threshold : ℚ) :
    List.Chain' (· < ·) (speechFrameIdx energy threshold) :=
  ((List.pairwise_lt_range energy.length).filter _).chain'

theorem groupRunsGo_props (xs : List Nat) : ∀ start last : Nat,
    start ≤ last →
    List.Chain' (· < ·) (last :: xs) →
    (∀ r ∈ groupRunsGo start last xs, r.1 ≤ r.2) ∧
      List.Chain' (fun r1 r2 : Nat × Nat => r1.2 + 1 < r2.1)
        (groupRunsGo start last xs) ∧
      ∃ e tl, groupRunsGo start last xs = (start, e) :: tl ∧ last ≤ e := by
  induction xs with
  | nil =>
    intro start last hsl _
    refine ⟨?_, by simp [groupRunsGo], last, [], rfl, le_rfl⟩
    intro r hr
    simp only [groupRunsGo, List.mem_singleton] at hr
    rw [hr]
    exact hsl
  | cons y ys ih =>
    intro start last hsl hch
    rw [List.chain'_cons] at hch
    by_cases h : last + 1 < y
    · rw [groupRunsGo, if_pos h]
      have hIH := ih y y le_rfl hch.2
      obtain ⟨e, tl, htl, hle⟩ := hIH.2.2
      refine ⟨?_, ?_, last, groupRunsGo y y ys, rfl, le_rfl⟩
      · intro r hr
        rcases List.mem_cons.mp hr with hr | hr
        · rw [hr]; exact hsl
        · exact hIH.1 r hr
      · rw [List.chain'_cons']
        refine ⟨?_, hIH.2.1⟩
        intro b hb
        rw [htl] at hb
        simp only [List.head?_cons, Option.mem_def, Option.some.injEq] at hb
        rw [← hb]
        exact h
    · rw [groupRunsGo, if_neg h]
      have hIH := ih start y (hsl.trans (le_of_lt hch.1)) hch.2
      refine ⟨hIH.1, hIH.2.1, ?_⟩
      obtain ⟨e, tl, htl, hle⟩ := hIH.2.2
      exact ⟨e, tl, htl, (le_of_lt hch.1).trans hle⟩

theorem groupRuns_props (xs : List Nat) (h : List.Chain' (· < ·) xs) :
    (∀ r ∈ groupRuns xs, r.1 ≤ r.2) ∧
      List.Chain' (fun r1 r2 : Nat × Nat => r1.2 + 1 < r2.1) (groupRuns xs) := by
  cases xs with
  | nil => exact ⟨by simp [groupRuns], by simp [groupRuns]⟩
  | cons x xs =>
    have hp := groupRunsGo_props xs x x le_rfl h
    exact ⟨hp.1, hp.2.1⟩

theorem runs_rel_head_all (a : Nat × Nat) (l : List (Nat × Nat))
    (hm : ∀ r ∈ l, r.1 ≤ r.2)
    (hch : List.Chain' (fun r1 r2 : Nat × Nat => r1.2 + 1 < r2.1) (a :: l)) :
    ∀ b ∈ l, a.2 + 1 < b.1 := by
  induction l generalizing a with
  | nil => simp
  | cons c l' ih =>
    rw [List.chain'_cons] at hch
    intro b hb
    rcases List.mem_cons.mp hb with hb | hb
    · rw [hb]; exact hch.1
    · have hcb := ih c (fun r hr => hm r (by simp [hr])) hch.2 b hb
      have hc : c.1 ≤ c.2 := hm c (by simp)
      omega

theorem runs_pairwise (l : List (Nat × Nat))
    (hm : ∀ r ∈ l, r.1 ≤ r.2)
    (hch : List.Chain' (fun r1 r2 : Nat × Nat => r1.2 + 1 < r2.1) l) :
    List.Pairwise (fun r1 r2 : Nat × Nat => r1.2 + 1 < r2.1) l := by
  induction l with
  | nil => simp
  | cons a l ih =>
    rw [List.pairwise_cons]
    exact ⟨runs_rel_head_all a l (fun r hr => hm r (by simp [hr])) hch,
      ih (fun r hr => hm r (by simp [hr])) (List.chain'_cons'.mp hch).2⟩

theorem hopTime_pos : 0 < hopTime := by norm_num [hopTime]

theorem detectVoiceActivity_disjoint (energy : List ℚ) (threshold : ℚ) :
    List.Pairwise (fun a b : ℚ × ℚ => a.2 < b.1)
      (detectVoiceActivity energy threshold) := by
  unfold detectVoiceActivity
  by_cases h : (speechFrameIdx energy threshold).isEmpty
  · simp [h]
  · rw [if_neg h]
    refine List.Pairwise.filter _ ?_
    rw [List.pairwise_map]
    have hg := groupRuns_props _ (speechFrameIdx_chain energy threshold)
    refine (runs_pairwise _ hg.1 hg.2).imp ?_
    intro r1 r2 hr
    have h1 : (r1.2 : ℚ) < (r2.1 : ℚ) := by
      have : r1.2 < r2.1 := by omega
      exact_mod_cast this
    exact mul_lt_mul_of_pos_right h1 hopTime_pos

theorem detectVoiceActivity_floor (energy : List ℚ) (threshold : ℚ) :
    ∀ iv ∈ detectVoiceActivity energy threshold, 1/2 ≤ iv.2 - iv.1 := by
  intro iv hiv
  unfold detectVoiceActivity at hiv
  by_cases h : (speechFrameIdx energy threshold).isEmpty
  · simp [h] at hiv
  · rw [if_neg h] at hiv
    have := (List.mem_filter.mp hiv).2
    simpa using this

theorem detectVoiceActivity_silent (energy : List ℚ) (threshold : ℚ)
    (h : ∀ e ∈ energy, e ≤ threshold) :
    detectVoiceActivity energy threshold = [] := by
  have hsf : speechFrameIdx energy threshold = [] := by
    unfold speechFrameIdx
    rw [List.filter_eq_nil_iff]
    intro k hk
    rw [List.mem_range] at hk
    rw [List.getD_eq_getElem energy 0 hk]
    simp only [decide_eq_true_eq, not_lt]
    exact h _ (energy.getElem_mem hk)
  unfold detectVoiceActivity
  rw [hsf]
  rfl

theorem detectVoiceActivity_sorted (energy : List ℚ) (threshold : ℚ) :
    List.Pairwise (fun a b : ℚ × ℚ => a.1 < b.1)
      (detectVoiceActivity energy threshold) := by
  refine (detectVoiceActivity_disjoint energy threshold).imp_of_mem ?_
  intro a b ha _ hab
  have hfa := detectVoiceActivity_floor energy threshold a ha
  have : a.1 < a.2 := by linarith
  exact lt_trans this hab

/-! ## Model-order selection lemmas -/

theorem candidateKs_range (minS maxS n : Nat) :
    ∀ k ∈ candidateKs minS maxS n, max minS 2 ≤ k ∧ k ≤ min maxS (n - 1) := by
  intro k hk
  unfold candidateKs at hk
  rw [List.mem_filter] at hk
  have h1 := hk.1
  rw [List.mem_range'_1] at h1
  have h2 : 1 < k := by simpa using hk.2
  omega

theorem candidateKs_empty (minS maxS n : Nat) (h : maxS < minS) :
    candidateKs minS maxS n = [] := by
  unfold candidateKs
  have h0 : min (maxS + 1) n - minS = 0 := by omega
  rw [h0]
  rfl

theorem selectFold_keep (score : Nat → Option ℚ) (s₀ : ℚ) :
    ∀ (l : List Nat), (∀ k ∈ l, ∀ s, score k = some s → s ≤ s₀) →
    ∀ k₀ : Nat,
    l.foldl (fun best k =>
      match score k with
      | none => best
      | some sc => if best.2 < sc then (k, sc) else best) (k₀, s₀) = (k₀, s₀) := by
  intro l
  induction l with
  | nil => intro _ k₀; rfl
  | cons k l ih =>
    intro h k₀
    rw [List.foldl_cons]
    cases hs : score k with
    | none =>
      simp only [hs]
      exact ih (fun k' hk' => h k' (by simp [hk'])) k₀
    | some sc =>
      simp only [hs]
      rw [if_neg (not_lt.mpr (h k (by simp) sc hs))]
      exact ih (fun k' hk' => h k' (by simp [hk'])) k₀

theorem selectFold_lt (score : Nat → Option ℚ) (s₀ : ℚ) :
    ∀ (l : List Nat), (∀ k ∈ l, ∀ s, score k = some s → s < s₀) →
    ∀ acc : Nat × ℚ, acc.2 < s₀ →
    (l.foldl (fun best k =>
      match score k with
      | none => best
      | some sc => if best.2 < sc then (k, sc) else best) acc).2 < s₀ := by
  intro l
  induction l with
  | nil => intro _ acc hacc; exact hacc
  | cons k l ih =>
    intro h acc hacc
    rw [List.foldl_cons]
    cases hs : score k with
    | none =>
      simp only [hs]
      exact ih (fun k' hk' => h k' (by simp [hk'])) acc hacc
    | some sc =>
      simp only [hs]
      by_cases hlt : acc.2 < sc
      · rw [if_pos hlt]
        exact ih (fun k' hk' => h k' (by simp [hk'])) (k, sc) (h k (by simp) sc hs)
      · rw [if_neg hlt]
        exact ih (fun k' hk' => h k' (by simp [hk'])) acc hacc

theorem selectBest_argmax (score : Nat → Option ℚ) (minS maxS n : Nat)
    (pre : List Nat) (k₀ : Nat) (post : List Nat) (s₀ : ℚ)
    (hsplit : candidateKs minS maxS n = pre ++ k₀ :: post)
    (hk₀ : score k₀ = some s₀) (hgt : -1 < s₀)
    (hpre : ∀ k ∈ pre, ∀ s, score k = some s → s < s₀)
    (hpost : ∀ k ∈ post, ∀ s, score k = some s → s ≤ s₀) :
    selectBest score minS maxS n = (k₀, s₀) := by
  unfold selectBest
  rw [hsplit, List.foldl_append, List.foldl_cons]
  have hacc := selectFold_lt score s₀ pre hpre (minS, -1) hgt
  generalize hg : List.foldl (fun best k =>
      match score k with
      | none => best
      | some sc => if best.2 < sc then (k, sc) else best) (minS, -1) pre = acc
  rw [hg] at hacc
  cases hs : score k₀ with
  | none => rw [hs] at hk₀; exact absurd hk₀ (by simp)
  | some sc =>
    rw [hs] at hk₀
    simp only [Option.some.injEq] at hk₀
    subst hk₀
    simp only [hs]
    rw [if_pos hacc]
    exact selectFold_keep score sc post hpost k₀

theorem selectBest_fallback (score : Nat → Option ℚ) (minS maxS n : Nat)
    (h : ∀ k ∈ candidateKs minS maxS n, score k = none) :
    selectBest score minS maxS n = (minS, -1) := by
  unfold selectBest
  generalize hg : candidateKs minS maxS n = l
  rw [hg] at h
  clear hg
  induction l with
  | nil => rfl
  | cons k l ih =>
    rw [List.foldl_cons]
    have hk := h k (by simp)
    simp only [hk]
    exact ih (fun k' hk' => h k' (by simp [hk']))

theorem selectBest_of_gt (score : Nat → Option ℚ) (minS maxS n : Nat)
    (h : maxS < minS) : selectBest score minS maxS n = (minS, -1) := by
  unfold selectBest
  rw [candidateKs_empty minS maxS n h]
  rfl

/-! ## Pipeline-level helper lemmas -/

theorem zip_map_snd_sublist {β γ : Type} (l₁ : List β) : ∀ l₂ : List γ,
    ((l₁.zip l₂).map Prod.snd).Sublist l₂ := by
  induction l₁ with
  | nil => intro l₂; simp
  | cons x l₁ ih =>
    intro l₂
    cases l₂ with
    | nil => simp
    | cons y l₂ =>
      rw [List.zip_cons_cons, List.map_cons]
      exact (ih l₂).cons₂ y

/-- A segment lies entirely inside a single VAD interval (the formal
reading of "covers only time ranges that were marked speech-active / does
not span a gap between two VoiceIntervals"). -/
def withinSomeInterval (s : Seg) (vad : List (ℚ × ℚ)) : Prop :=
  ∃ iv ∈ vad, iv.1 ≤ s.start ∧ s.stop ≤ iv.2

instance (s : Seg) (vad : List (ℚ × ℚ)) :
    Decidable (withinSomeInterval s vad) := by
  unfold withinSomeInterval; infer_instance

theorem processDiarizationFS_run {α : Type} (i : PipelineInput α)
    (features : List α) (frames energy : List ℚ) (d : ℚ)
    (hconv : (convertToWav i.ffmpegRes i.librosaRes i.tempPath).1 =
      Except.ok i.tempPath)
    (hex : i.extractRes = Except.ok (features, frames, energy, d)) :
    processDiarizationFS i =
      (Except.ok
        { duration := d,
          num_speakers := numSpeakersOf (clusterSpeakers i.clusterFn i.silFn
            i.scaleFn features frames (detectVoiceActivity energy (-40))
            i.minSpeakers i.maxSpeakers),
          segments := clusterSpeakers i.clusterFn i.silFn i.scaleFn features
            frames (detectVoiceActivity energy (-40)) i.minSpeakers
            i.maxSpeakers },
        (i.tempPath :: i.fs).erase i.tempPath) := by
  unfold processDiarizationFS
  rw [hconv, hex]

theorem processDiarizationFS_extract_err {α : Type} (i : PipelineInput α)
    (e : String)
    (hconv : (convertToWav i.ffmpegRes i.librosaRes i.tempPath).1 =
      Except.ok i.tempPath)
    (hex : i.extractRes = Except.error e) :
    processDiarizationFS i = (Except.error e, i.tempPath :: i.fs) := by
  unfold processDiarizationFS
  rw [hconv, hex]

/-! ## Concrete instances used for evaluation -/

/-- Frame timestamps `k * hopTime` for `k < n`
(what `librosa.times_like` yields for `n` frames). -/
def framesOf (n : Nat) : List ℚ := (List.range n).map (fun k => (k : ℚ) * hopTime)

/-- A concrete stand-in for `AgglomerativeClustering(n_clusters=k)` on
featureless inputs: sample `i` gets label `i % k`.  For `k = 1` every
sample is labelled `0`, which is the only possible one-cluster output. -/
def modClusterFn : Nat → List Unit → List Nat :=
  fun k xs => (List.range xs.length).map (· % k)

/-- A silhouette stand-in that always raises (it is never consulted in the
concrete runs below, whose candidate lists are empty). -/
def noSil : List Unit → List Nat → Option ℚ := fun _ _ => none

/-- A run with `min_speakers = 3 > max_speakers = 1` over 21 uniformly
voiced frames. -/
def inputC1 : PipelineInput Unit :=
  { clusterFn := modClusterFn, silFn := noSil, scaleFn := id,
    ffmpegRes := .ok (), librosaRes := .ok (),
    extractRes := .ok (List.replicate 21 (), framesOf 21,
      List.replicate 21 0, 2),
    audioPath := "audio.mp3", tempPath := "temp_diarize.wav",
    minSpeakers := 3, maxSpeakers := 1, fs := [] }

/-- The same run, except `extract_features` raises. -/
def inputC2 : PipelineInput Unit :=
  { inputC1 with extractRes := .error "load failed" }

/-- A silent run: every energy frame is far below the -40 dB threshold. -/
def inputC7 : PipelineInput Unit :=
  { clusterFn := modClusterFn, silFn := noSil, scaleFn := id,
    ffmpegRes := .ok (), librosaRes := .ok (),
    extractRes := .ok ([], [], List.replicate 10 (-50), 5/2),
    audioPath := "silence.mp3", tempPath := "temp_diarize.wav",
    minSpeakers := 1, maxSpeakers := 10, fs := [] }

/-- 41 voiced frames with a one-frame energy dip at index 21, producing
two VAD intervals separated by a 0.064 s gap. -/
def energyGap : List ℚ := (List.range 41).map (fun k => if k = 21 then -50 else 0)

/-- The silhouette stand-in used with rational scores in witnesses. -/
def scoreW : Nat → Option ℚ := fun k => if k = 2 then some (1/2) else some (1/4)

/-! ## Claims -/

/-- Claim C4: during model-order selection every candidate cluster count k
lies in `[max(minSpeakers,2), min(maxSpeakers, numRetainedFrames-1)]`; the
retained k is the first one achieving the highest silhouette score (scores
compared with strict greater-than, so ties go to the first k encountered);
and when no candidate yields a valid multi-cluster result the search falls
back to `minSpeakers` (the clusterer then still returns normally: it is a
total function). -/
theorem claim_C4 (minS maxS n : Nat) (score : Nat → Option ℚ) :
    (∀ k ∈ candidateKs minS maxS n, max minS 2 ≤ k ∧ k ≤ min maxS (n - 1)) ∧
    (∀ (pre : List Nat) (k₀ : Nat) (post : List Nat) (s₀ : ℚ),
      candidateKs minS maxS n = pre ++ k₀ :: post →
      score k₀ = some s₀ → -1 < s₀ →
      (∀ k ∈ pre, ∀ s, score k = some s → s < s₀) →
      (∀ k ∈ post, ∀ s, score k = some s → s ≤ s₀) →
      selectBest score minS maxS n = (k₀, s₀)) ∧
    ((∀ k ∈ candidateKs minS maxS n, score k = none) →
      selectBest score minS maxS n = (minS, -1)) :=
  ⟨candidateKs_range minS maxS n,
    fun pre k₀ post s₀ h1 h2 h3 h4 h5 =>
      selectBest_argmax score minS maxS n pre k₀ post s₀ h1 h2 h3 h4 h5,
    selectBest_fallback score minS maxS n⟩

/-- Witness for C4 at `minSpeakers = 1`, `maxSpeakers = 3`, 10 retained
frames and scores `{2 ↦ 1/2, 3 ↦ 1/4}`: the candidates are `[2, 3]`, k = 2
wins, and it lies in the required interval. -/
theorem claim_C4_witness :
    selectBest scoreW 1 3 10 = (2, 1/2) ∧
      (max 1 2 ≤ 2 ∧ 2 ≤ min 3 (10 - 1)) := by
  constructor
  · refine (claim_C4 1 3 10 scoreW).2.1 [] 2 [3] (1/2) rfl rfl (by norm_num)
      (by simp) ?_
    intro k hk s hs
    rw [List.mem_singleton] at hk
    subst hk
    rw [show scoreW 3 = some (1/4 : ℚ) from rfl] at hs
    simp only [Option.some.injEq] at hs
    rw [← hs]
    norm_num
  · exact (claim_C4 1 3 10 scoreW).1 2 (by decide)

/-- Claim C5: for every input, the VAD output intervals are pairwise
disjoint, sorted by start time, each at least 0.5 s long, and the empty
list is returned as a normal (non-exceptional) result when no frame
exceeds the energy threshold. -/
theorem claim_C5 (energy : List ℚ) (threshold : ℚ) :
    List.Pairwise (fun a b : ℚ × ℚ => a.2 < b.1)
        (detectVoiceActivity energy threshold) ∧
      List.Pairwise (fun a b : ℚ × ℚ => a.1 < b.1)
        (detectVoiceActivity energy threshold) ∧
      (∀ iv ∈ detectVoiceActivity energy threshold, 1/2 ≤ iv.2 - iv.1) ∧
      ((∀ e ∈ energy, e ≤ threshold) →
        detectVoiceActivity energy threshold = []) :=
  ⟨detectVoiceActivity_disjoint energy threshold,
    detectVoiceActivity_sorted energy threshold,
    detectVoiceActivity_floor energy threshold,
    detectVoiceActivity_silent energy threshold⟩

/-- Witness for C5: on two frames of -50 dB energy against a -40 dB
threshold, the VAD returns the empty list. -/
theorem claim_C5_witness : detectVoiceActivity [-50, -50] (-40) = [] :=
  (claim_C5 [-50, -50] (-40)).2.2.2 (by
    intro e he
    simp only [List.mem_cons, List.not_mem_nil, or_false] at he
    rcases he with rfl | rfl <;> norm_num)

/-- Claim C6: the merge pass of the Segment Assembler is idempotent —
running it twice yields the same segment list as running it once (proved
for every segment list, in particular for already-merged ones). -/
theorem claim_C6 (segs : List Seg) :
    mergeSegments (mergeSegments segs) = mergeSegments segs :=
  mergeSegments_idem segs

/-- Claim C7: when the VAD finds no active frame (all energies at or below
the -40 dB threshold), `process_diarization` returns a normal result with
the signal's duration, `num_speakers = 0` and an empty segment list,
raising no error. -/
theorem claim_C7 {α : Type} (i : PipelineInput α) (features : List α)
    (frames energy : List ℚ) (d : ℚ)
    (hconv : (convertToWav i.ffmpegRes i.librosaRes i.tempPath).1 =
      Except.ok i.tempPath)
    (hex : i.extractRes = Except.ok (features, frames, energy, d))
    (hsilent : ∀ e ∈ energy, e ≤ -40) :
    (processDiarizationFS i).1 = Except.ok ⟨d, 0, []⟩ := by
  rw [processDiarizationFS_run i features frames energy d hconv hex]
  rw [detectVoiceActivity_silent energy (-40) hsilent]
  rfl

/-- Witness for C7: a silent 2.5-second signal yields
`{duration: 5/2, num_speakers: 0, segments: []}`. -/
theorem claim_C7_witness :
    (processDiarizationFS inputC7).1 = Except.ok ⟨5/2, 0, []⟩ :=
  claim_C7 inputC7 [] [] (List.replicate 10 (-50)) (5/2) rfl rfl (by
    intro e he
    simp only [List.mem_replicate] at he
    rw [he.2]
    norm_num)

/-- Claim C8: `convert_to_wav` attempts FFmpeg first; only when it fails
does it attempt the librosa + soundfile path; it returns the output path
when either strategy succeeds and raises exactly when both fail. -/
theorem claim_C8 (f l : Except String Unit) (out : String) :
    (f = Except.ok () →
      convertToWav f l out = (Except.ok out, [DecodeStrategy.ffmpeg])) ∧
    (∀ e, f = Except.error e → l = Except.ok () →
      convertToWav f l out =
        (Except.ok out, [DecodeStrategy.ffmpeg, DecodeStrategy.librosa])) ∧
    (∀ e e', f = Except.error e → l = Except.error e' →
      convertToWav f l out =
        (Except.error ("conversion failed: " ++ e ++ "; caused by: " ++ e'),
          [DecodeStrategy.ffmpeg, DecodeStrategy.librosa])) ∧
    ((∃ p, (convertToWav f l out).1 = Except.ok p) ↔
      f = Except.ok () ∨ l = Except.ok ()) := by
  refine ⟨?_, ?_, ?_, ?_, ?_⟩
  · rintro rfl; rfl
  · rintro e rfl rfl; rfl
  · rintro e e' rfl rfl; rfl
  · rintro ⟨p, hp⟩
    cases f with
    | ok u => exact Or.inl rfl
    | error e =>
      cases l with
      | ok u => exact Or.inr rfl
      | error e' => simp [convertToWav] at hp
  · rintro (rfl | hl)
    · exact ⟨out, rfl⟩
    · cases f with
      | ok u => exact ⟨out, rfl⟩
      | error e => rw [hl]; exact ⟨out, rfl⟩

/-- Witness for C8: FFmpeg fails with a corrupted header, the librosa path
succeeds, and the output path is returned after both strategies were
attempted in order. -/
theorem claim_C8_witness :
    convertToWav (Except.error "bad header") (Except.ok ()) "out.wav" =
      (Except.ok "out.wav", [DecodeStrategy.ffmpeg, DecodeStrategy.librosa]) :=
  (claim_C8 (Except.error "bad header") (Except.ok ()) "out.wav").2.1
    "bad header" rfl rfl

/-- Claim C9: determinism — the pipeline is a pure function of the input
environment (signal-derived data, parameters, and the deterministic
library functions); no stage consumes a randomness source, so two runs on
identical inputs produce identical DiarizationResults. -/
theorem claim_C9 {α : Type} (i j : PipelineInput α) (h : i = j) :
    processDiarizationFS i = processDiarizationFS j := by
  rw [h]

/-- Witness for C9 on a concrete input. -/
theorem claim_C9_witness :
    processDiarizationFS inputC7 = processDiarizationFS inputC7 :=
  claim_C9 inputC7 inputC7 rfl

/-- Claim C10: a SpeakerSegment may have `start = end`: whenever a maximal
run of retained frames with one speaker label is a single frame — its
neighbours breaking the run by a label change or a gap above 1.0 s — the
assembled output (after the merge pass) contains the segment whose start
and end both equal that frame's timestamp.  The first conjunct covers a
singleton run with a predecessor, the second a singleton run at the head
of the frame list. -/
theorem claim_C10 :
    (∀ (pre : List (Nat × ℚ)) (a : Nat) (ta : ℚ) (b : Nat) (tb : ℚ)
        (post : List (Nat × ℚ)),
      (b ≠ a ∨ 1 < tb - ta) →
      (∀ c tc post', post = (c, tc) :: post' → (c ≠ b ∨ 1 < tc - tb)) →
      Seg.mk b tb tb ∈
        mergeSegments (buildSegments (pre ++ (a, ta) :: (b, tb) :: post))) ∧
    (∀ (b : Nat) (tb : ℚ) (post : List (Nat × ℚ)),
      (∀ c tc post', post = (c, tc) :: post' → (c ≠ b ∨ 1 < tc - tb)) →
      Seg.mk b tb tb ∈ mergeSegments (buildSegments ((b, tb) :: post))) :=
  ⟨singleton_run_mem, singleton_run_mem_head⟩

/-- Witness for C10: frames at 0 s (speaker 0) and 0.1 s (speaker 1) — the
second is a singleton run and yields the zero-length segment (1, 0.1, 0.1)
in the merged output. -/
theorem claim_C10_witness :
    Seg.mk 1 (1/10) (1/10) ∈ mergeSegments (buildSegments [(0, 0), (1, 1/10)]) :=
  claim_C10.1 [] 0 0 1 (1/10) [] (Or.inl one_ne_zero)
    (fun _ _ _ h => nomatch h)

/-- The shape of `cluster_speakers`: either one of the two early returns
fires, or the output is the merged assembly of the final labels zipped
with the retained frame timestamps. -/
theorem clusterSpeakers_shape {α : Type} (clusterFn : Nat → List α → List Nat)
    (silFn : List α → List Nat → Option ℚ) (scaleFn : List α → List α)
    (features : List α) (frames : List ℚ) (vad : List (ℚ × ℚ))
    (minS maxS : Nat) :
    clusterSpeakers clusterFn silFn scaleFn features frames vad minS maxS
        = [] ∨
      ∃ labels : List Nat,
        clusterSpeakers clusterFn silFn scaleFn features frames vad minS maxS
          = mergeSegments (buildSegments (labels.zip
              (((features.zip frames).filter
                (fun p => inVoice p.2 vad)).map Prod.snd))) := by
  cases vad with
  | nil => exact Or.inl rfl
  | cons v vs =>
    simp only [clusterSpeakers]
    split
    · exact Or.inl rfl
    · exact Or.inr ⟨_, rfl⟩

/-- Claim C1 (amended): `process_diarization` performs no validation of the
speaker range and knows no `InvalidRange` error.  When
`min_speakers > max_speakers` the call is not rejected: the candidate list
of the model-order search is empty (for any retained frame count), the
search falls back to `(min_speakers, -1)`, and the call runs the full
pipeline and returns a normal result. -/
theorem claim_C1 {α : Type} (i : PipelineInput α) (features : List α)
    (frames energy : List ℚ) (d : ℚ)
    (hrange : i.maxSpeakers < i.minSpeakers)
    (hconv : (convertToWav i.ffmpegRes i.librosaRes i.tempPath).1 =
      Except.ok i.tempPath)
    (hex : i.extractRes = Except.ok (features, frames, energy, d)) :
    (∀ n, candidateKs i.minSpeakers i.maxSpeakers n = []) ∧
      (∀ score n, selectBest score i.minSpeakers i.maxSpeakers n =
        (i.minSpeakers, -1)) ∧
      ∃ r, (processDiarizationFS i).1 = Except.ok r := by
  refine ⟨fun n => candidateKs_empty _ _ n hrange,
    fun score n => selectBest_of_gt score _ _ n hrange, ?_⟩
  rw [processDiarizationFS_run i features frames energy d hconv hex]
  exact ⟨_, rfl⟩

set_option maxRecDepth 8000 in
set_option maxHeartbeats 1600000 in
/-- Counterexample to C1 as stated: with `min_speakers = 3` and
`max_speakers = 1` on a 21-frame voiced signal, the call is not rejected
with an error before processing — it returns a normal result whose 3
distinct speakers and 21 segments show that decoding, VAD and clustering
were all performed. -/
theorem claim_C1_counterexample :
    ((processDiarizationFS inputC1).1.toOption.map
      (fun r => (r.num_speakers, r.segments.length))) = some (3, 21) := by
  rw [processDiarizationFS_run inputC1 (List.replicate 21 ()) (framesOf 21)
    (List.replicate 21 0) 2 rfl rfl]
  norm_num [detectVoiceActivity, speechFrameIdx, groupRuns,
    groupRunsGo, hopTime, List.range_succ, clusterSpeakers, inVoice, framesOf,
    selectBest, candidateKs, evalCandidate, modClusterFn, noSil, List.range',
    buildSegments, buildAux, mergeSegments, mergeAux, mergeCond, numSpeakersOf,
    List.replicate, inputC1]
  exact ⟨_, rfl, rfl, rfl⟩

/-- Witness for C1 (amended) at the concrete run `inputC1`. -/
theorem claim_C1_witness :
    candidateKs 3 1 40 = [] ∧
      ∃ r, (processDiarizationFS inputC1).1 = Except.ok r := by
  have h := claim_C1 inputC1 (List.replicate 21 ()) (framesOf 21)
    (List.replicate 21 0) 2 (by decide) rfl rfl
  exact ⟨h.1 40, h.2.2⟩

/-- Claim C2 (amended): the temporary WAV is removed before returning on
the success path, but on an exception path after its creation (here a
failing `extract_features`) the exception propagates without the file
being removed — the cleanup at lines 298-299 is not in a finally block. -/
theorem claim_C2 {α : Type} :
    (∀ (i : PipelineInput α) (features : List α) (frames energy : List ℚ)
        (d : ℚ),
      i.tempPath ∉ i.fs →
      (convertToWav i.ffmpegRes i.librosaRes i.tempPath).1 =
        Except.ok i.tempPath →
      i.extractRes = Except.ok (features, frames, energy, d) →
      i.tempPath ∉ (processDiarizationFS i).2) ∧
    (∀ (i : PipelineInput α) (e : String),
      (convertToWav i.ffmpegRes i.librosaRes i.tempPath).1 =
        Except.ok i.tempPath →
      i.extractRes = Except.error e →
      i.tempPath ∈ (processDiarizationFS i).2) := by
  constructor
  · intro i features frames energy d hnot hconv hex
    rw [processDiarizationFS_run i features frames energy d hconv hex]
    simpa [List.erase_cons_head] using hnot
  · intro i e hconv hex
    rw [processDiarizationFS_extract_err i e hconv hex]
    exact List.mem_cons_self _ _

/-- Counterexample to C2 as stated: decoding succeeds (the temporary WAV
is created), `extract_features` raises, and the call returns with the
exception while the temporary file is still present. -/
theorem claim_C2_counterexample :
    (processDiarizationFS inputC2).1 = Except.error "load failed" ∧
    (processDiarizationFS inputC2).2 = ["temp_diarize.wav"] :=
  ⟨rfl, rfl⟩

/-- Witness for C2 (amended): the temp file is gone after the successful
run `inputC1` and still present after the failing run `inputC2`. -/
theorem claim_C2_witness :
    "temp_diarize.wav" ∉ (processDiarizationFS inputC1).2 ∧
    "temp_diarize.wav" ∈ (processDiarizationFS inputC2).2 :=
  ⟨(@claim_C2 Unit).1 inputC1 (List.replicate 21 ()) (framesOf 21)
      (List.replicate 21 0) 2 (by simp [inputC1]) rfl rfl,
    (@claim_C2 Unit).2 inputC2 "load failed" rfl rfl⟩

/-- Claim C3 (amended): within one diarization run the output segments are
sorted by start time and mutually non-overlapping
(`segment[i+1].start ≥ segment[i].end`, each segment with `start ≤ end`);
however a segment need not lie within a single VoiceInterval: retained
frames less than 1.0 s apart are chained across the gap between two
VoiceIntervals, so a segment can span such a gap. -/
theorem claim_C3 {α : Type} (clusterFn : Nat → List α → List Nat)
    (silFn : List α → List Nat → Option ℚ) (scaleFn : List α → List α)
    (features : List α) (frames : List ℚ) (vad : List (ℚ × ℚ))
    (minS maxS : Nat) (out : List Seg)
    (hfr : List.Chain' (· < ·) frames)
    (hout : out = clusterSpeakers clusterFn silFn scaleFn features frames vad
      minS maxS) :
    List.Chain' (fun a b : Seg => a.stop ≤ b.start) out ∧
      (∀ s ∈ out, s.start ≤ s.stop) ∧
      List.Chain' (fun a b : Seg => a.start ≤ b.start) out := by
  subst hout
  rcases clusterSpeakers_shape clusterFn silFn scaleFn features frames vad
    minS maxS with h | ⟨labels, h⟩
  · rw [h]
    exact ⟨by simp, by simp, by simp⟩
  · rw [h]
    have hsub : ((labels.zip (((features.zip frames).filter
        (fun p => inVoice p.2 vad)).map Prod.snd)).map Prod.snd).Sublist
          frames :=
      (zip_map_snd_sublist _ _).trans
        (((List.filter_sublist _).map Prod.snd).trans
          (zip_map_snd_sublist features frames))
    have hpw : List.Pairwise (· < ·)
        ((labels.zip (((features.zip frames).filter
          (fun p => inVoice p.2 vad)).map Prod.snd)).map Prod.snd) :=
      (List.chain'_iff_pairwise.mp hfr).sublist hsub
    have hch := List.chain'_iff_pairwise.mpr hpw
    have ho := assembled_ordered _ hch
    exact ⟨ho.1, ho.2, chain_start_le _ ho.1 ho.2⟩

set_option maxRecDepth 8000 in
set_option maxHeartbeats 1600000 in
/-- Counterexample to C3's coverage conjunct: a 41-frame signal with a
one-frame energy dip yields two VAD intervals, (0, 0.64) and
(0.704, 1.28); with a single speaker the assembler emits one segment
(0, 0, 1.28) that spans the 0.064 s gap between the two intervals, so it
lies inside no single VoiceInterval. -/
theorem claim_C3_counterexample :
    detectVoiceActivity energyGap (-40) = [(0, 16/25), (88/125, 32/25)] ∧
    clusterSpeakers modClusterFn noSil id (List.replicate 41 ()) (framesOf 41)
        (detectVoiceActivity energyGap (-40)) 1 1 = [⟨0, 0, 32/25⟩] ∧
    ¬ withinSomeInterval ⟨0, 0, 32/25⟩ (detectVoiceActivity energyGap (-40)) := by
  have hvad : detectVoiceActivity energyGap (-40) =
      [(0, 16/25), (88/125, 32/25)] := by
    norm_num [detectVoiceActivity, speechFrameIdx, energyGap, groupRuns,
      groupRunsGo, hopTime, List.range_succ]
  refine ⟨hvad, ?_, ?_⟩
  · norm_num [detectVoiceActivity, speechFrameIdx, energyGap, groupRuns,
      groupRunsGo, hopTime, List.range_succ, clusterSpeakers, inVoice,
      framesOf, selectBest, candidateKs, evalCandidate, modClusterFn, noSil,
      List.range', buildSegments, buildAux, mergeSegments, mergeAux,
      mergeCond, numSpeakersOf, List.replicate]
  · rw [hvad]
    norm_num [withinSomeInterval]

/-- Witness for C3 (amended) on a concrete two-frame run. -/
theorem claim_C3_witness :
    List.Chain' (fun a b : Seg => a.stop ≤ b.start)
        (clusterSpeakers modClusterFn noSil id (List.replicate 2 ())
          [0, 1/10] [(0, 1)] 1 1) ∧
      (∀ s ∈ clusterSpeakers modClusterFn noSil id (List.replicate 2 ())
          [0, 1/10] [(0, 1)] 1 1, s.start ≤ s.stop) ∧
      List.Chain' (fun a b : Seg => a.start ≤ b.start)
        (clusterSpeakers modClusterFn noSil id (List.replicate 2 ())
          [0, 1/10] [(0, 1)] 1 1) :=
  claim_C3 modClusterFn noSil id (List.replicate 2 ()) [0, 1/10] [(0, 1)] 1 1
    _ (by norm_num [List.chain'_cons, List.chain'_singleton]) rfl
